import Mathlib

/-!
# Verification of the noir-ascii-art rendering core

Shallow embedding of `src/main.rs`: the binarizer, the Braille cell
packer/renderer, and the command-line argument handling. Rust panics
(out-of-range slice indexing, `unreachable!`) are modelled by `Option`:
a `none` result marks a panic of the original program.
-/

namespace NoirAscii

/-- Model of `std::char::from_u32`: `some` exactly on valid Unicode scalar
values, `none` otherwise. -/
def char_from_u32 (n : Nat) : Option Char :=
  if n.isValidChar then some (Char.ofNat n) else none

/-- `cell_to_char` from `src/main.rs`:
`std::char::from_u32(0x2800 + dots as u32).unwrap_or(' ')`.
The `dots` argument is a `u8` in the source, so callers pass values below 256. -/
def cell_to_char (dots : Nat) : Char :=
  (char_from_u32 (0x2800 + dots)).getD ' '

/-- The grayscale image interface consumed by the core: width, height and a
per-pixel 8-bit luminance lookup (`img.get_pixel(x, y).0[0]`). -/
structure GrayImage where
  width : Nat
  height : Nat
  pix : Nat → Nat → Nat

/-- `binarize` from `src/main.rs`: row-major matrix of `luma < threshold`. -/
def binarize (img : GrayImage) (threshold : Nat) : List (List Bool) :=
  (List.range img.height).map (fun y =>
    (List.range img.width).map (fun x => decide (img.pix x y < threshold)))

/-- The `match (dx, dy)` bit table in `render_braille`; `none` models the
`unreachable!` arm. -/
def bit_for (dx dy : Nat) : Option Nat :=
  match dx, dy with
  | 0, 0 => some 0
  | 0, 1 => some 1
  | 0, 2 => some 2
  | 0, 3 => some 6
  | 1, 0 => some 3
  | 1, 1 => some 4
  | 1, 2 => some 5
  | 1, 3 => some 7
  | _, _ => none

/-- The `(dy, dx)` pairs visited by the nested `for dy in 0..4 { for dx in 0..2 }`
loops, in visit order. -/
def subPositions : List (Nat × Nat) :=
  ((List.range 4).map (fun dy => (List.range 2).map (fun dx => (dy, dx)))).flatten

/-- One iteration of the inner dot loop: bounds test `py < height && px < width`,
then the (panicking) matrix access `matrix[py][px]`, then `dots |= 1 << bit`. -/
def dotsStep (matrix : List (List Bool)) (height width x y : Nat)
    (dots : Nat) (p : Nat × Nat) : Option Nat :=
  let py := y + p.1
  let px := x + p.2
  if py < height ∧ px < width then
    match (matrix.get? py).bind (fun row => row.get? px) with
    | none => none
    | some b =>
      if b then (bit_for p.2 p.1).map (fun bit => dots ||| (1 <<< bit))
      else some dots
  else some dots

/-- The dot mask accumulated for the 2x4 block at origin `(x, y)`. -/
def dotsFor (matrix : List (List Bool)) (height width x y : Nat) : Option Nat :=
  subPositions.foldlM (dotsStep matrix height width x y) 0

/-- Block-column origins visited by `for x in (0..width).step_by(2)`. -/
def blockCols (width : Nat) : List Nat :=
  (List.range ((width + 1) / 2)).map (fun i => i * 2)

/-- Block-row origins visited by `for y in (0..height).step_by(4)`. -/
def blockRows (height : Nat) : List Nat :=
  (List.range ((height + 3) / 4)).map (fun i => i * 4)

/-- One output line: the glyphs of one row of braille cells. -/
def renderLine (matrix : List (List Bool)) (height width y : Nat) :
    Option (List Char) :=
  (blockCols width).mapM (fun x => (dotsFor matrix height width x y).map cell_to_char)

/-- `render_braille` from `src/main.rs`. `matrix[0]` panics on an empty
matrix, hence the `none` in that case; each output line is followed by
`output.push('\n')`. -/
def render_braille (matrix : List (List Bool)) : Option String :=
  match matrix.head? with
  | none => none
  | some row0 =>
    let height := matrix.length
    let width := row0.length
    ((blockRows height).mapM (fun y =>
        (renderLine matrix height width y).map (fun l => l ++ ['\n']))).map
      (fun ls => String.mk ls.flatten)

/-- Value of a list of decimal digit characters, most significant first. -/
def digitsVal (ds : List Char) : Nat :=
  ds.foldl (fun acc c => acc * 10 + (c.toNat - 48)) 0

/-- Drop a single leading `'+'` sign, as Rust integer parsing does. -/
def dropSign (cs : List Char) : List Char :=
  match cs with
  | c :: rest => if c = '+' then rest else cs
  | [] => []

/-- Modelled from Rust `str::parse::<u8>` (external standard library, not in
`src/`): an optional `'+'` sign followed by one or more ASCII digits whose
value fits in 8 bits; anything else (empty, other characters, a `'-'` sign,
overflow past 255) is a parse error. -/
def parse_u8 (s : String) : Option Nat :=
  if (dropSign s.data).isEmpty then none
  else if (dropSign s.data).all Char.isDigit then
    if digitsVal (dropSign s.data) ≤ 255 then some (digitsVal (dropSign s.data))
    else none
  else none

/-- `args.get(i).and_then(|s| parse(s).ok()).unwrap_or(default)` from `main`. -/
def opt_arg_or {α : Type} (args : List String) (i : Nat)
    (parse : String → Option α) (default : α) : α :=
  ((args.get? i).bind parse).getD default

/-- The threshold computed by `main`:
`args.get(2).and_then(|s| s.parse().ok()).unwrap_or(128)`. -/
def threshold_of_args (args : List String) : Nat :=
  opt_arg_or args 2 parse_u8 128

/-- Cell lookup with out-of-range positions reading as `false` (used only to
state properties; the code itself guards every access). -/
def cellAt (matrix : List (List Bool)) (py px : Nat) : Bool :=
  ((matrix.get? py).bind (fun row => row.get? px)).getD false

/-- The bit contributed to a block mask by sub-position `(dx, dy)` of the
block at `(x, y)`: `1 << bit` when the position is in bounds and inked,
`0` otherwise. -/
def contrib (matrix : List (List Bool)) (height width x y dy dx bit : Nat) : Nat :=
  if (y + dy < height ∧ x + dx < width) ∧ cellAt matrix (y + dy) (x + dx) = true
  then 1 <<< bit else 0

/-- Closed form of the dot mask of one 2x4 block, with the eight contributions
combined in loop order. -/
def blockMask (matrix : List (List Bool)) (height width x y : Nat) : Nat :=
  ((((((((0 |||
    contrib matrix height width x y 0 0 0) |||
    contrib matrix height width x y 0 1 3) |||
    contrib matrix height width x y 1 0 1) |||
    contrib matrix height width x y 1 1 4) |||
    contrib matrix height width x y 2 0 2) |||
    contrib matrix height width x y 2 1 5) |||
    contrib matrix height width x y 3 0 6) |||
    contrib matrix height width x y 3 1 7)

/-- All rows have length `width`. -/
abbrev Rectangular (matrix : List (List Bool)) (width : Nat) : Prop :=
  ∀ row ∈ matrix, row.length = width

theorem get_bind_of_rect {matrix : List (List Bool)} {width : Nat}
    (hrect : Rectangular matrix width) {py px : Nat}
    (hy : py < matrix.length) (hx : px < width) :
    (matrix.get? py).bind (fun row => row.get? px) =
      some (cellAt matrix py px) := by
  have hy' : matrix.get? py = some (matrix.get ⟨py, hy⟩) := List.get?_eq_get hy
  have hmem : matrix.get ⟨py, hy⟩ ∈ matrix := List.get_mem matrix py hy
  have hlen : (matrix.get ⟨py, hy⟩).length = width := hrect _ hmem
  have hx2 : px < (matrix.get ⟨py, hy⟩).length := hlen ▸ hx
  have hx' : (matrix.get ⟨py, hy⟩).get? px =
      some ((matrix.get ⟨py, hy⟩).get ⟨px, hx2⟩) := List.get?_eq_get hx2
  unfold cellAt
  simp only [hy', Option.some_bind, hx', Option.getD_some]

theorem dotsStep_eq {matrix : List (List Bool)} {width : Nat}
    (hrect : Rectangular matrix width) (x y dots dy dx bit : Nat)
    (hbit : bit_for dx dy = some bit) :
    dotsStep matrix matrix.length width x y dots (dy, dx) =
      some (dots ||| contrib matrix matrix.length width x y dy dx bit) := by
  unfold dotsStep contrib
  by_cases hin : y + dy < matrix.length ∧ x + dx < width
  · rw [if_pos hin, get_bind_of_rect hrect hin.1 hin.2]
    by_cases hc : cellAt matrix (y + dy) (x + dx) = true
    · simp [hc, hbit, hin]
    · simp [hc, hin]
  · have hno : ¬ ((y + dy < matrix.length ∧ x + dx < width) ∧
        cellAt matrix (y + dy) (x + dx) = true) := fun h => hin h.1
    simp [if_neg hin, if_neg hno]

theorem dotsFor_eq {matrix : List (List Bool)} {width : Nat}
    (hrect : Rectangular matrix width) (x y : Nat) :
    dotsFor matrix matrix.length width x y =
      some (blockMask matrix matrix.length width x y) := by
  have hsub : subPositions =
      [(0, 0), (0, 1), (1, 0), (1, 1), (2, 0), (2, 1), (3, 0), (3, 1)] := rfl
  rw [dotsFor, hsub]
  rw [List.foldlM_cons, dotsStep_eq hrect x y _ 0 0 0 rfl]
  rw [Option.bind_eq_bind, Option.some_bind]
  rw [List.foldlM_cons, dotsStep_eq hrect x y _ 0 1 3 rfl]
  rw [Option.bind_eq_bind, Option.some_bind]
  rw [List.foldlM_cons, dotsStep_eq hrect x y _ 1 0 1 rfl]
  rw [Option.bind_eq_bind, Option.some_bind]
  rw [List.foldlM_cons, dotsStep_eq hrect x y _ 1 1 4 rfl]
  rw [Option.bind_eq_bind, Option.some_bind]
  rw [List.foldlM_cons, dotsStep_eq hrect x y _ 2 0 2 rfl]
  rw [Option.bind_eq_bind, Option.some_bind]
  rw [List.foldlM_cons, dotsStep_eq hrect x y _ 2 1 5 rfl]
  rw [Option.bind_eq_bind, Option.some_bind]
  rw [List.foldlM_cons, dotsStep_eq hrect x y _ 3 0 6 rfl]
  rw [Option.bind_eq_bind, Option.some_bind]
  rw [List.foldlM_cons, dotsStep_eq hrect x y _ 3 1 7 rfl]
  rw [Option.bind_eq_bind, Option.some_bind]
  rw [List.foldlM_nil]
  rfl

theorem contrib_lt (matrix : List (List Bool)) (height width x y dy dx bit : Nat)
    (hbit : bit ≤ 7) : contrib matrix height width x y dy dx bit < 256 := by
  unfold contrib
  split
  · have : (1 : Nat) <<< bit = 2 ^ bit := Nat.one_shiftLeft bit
    rw [this]
    calc 2 ^ bit ≤ 2 ^ 7 := Nat.pow_le_pow_right (by omega) hbit
      _ < 256 := by norm_num
  · omega

theorem blockMask_lt (matrix : List (List Bool)) (height width x y : Nat) :
    blockMask matrix height width x y < 256 := by
  have h256 : (256 : Nat) = 2 ^ 8 := by norm_num
  unfold blockMask
  rw [h256]
  refine Nat.or_lt_two_pow ?_ (h256 ▸ contrib_lt _ _ _ _ _ _ _ _ (by omega))
  refine Nat.or_lt_two_pow ?_ (h256 ▸ contrib_lt _ _ _ _ _ _ _ _ (by omega))
  refine Nat.or_lt_two_pow ?_ (h256 ▸ contrib_lt _ _ _ _ _ _ _ _ (by omega))
  refine Nat.or_lt_two_pow ?_ (h256 ▸ contrib_lt _ _ _ _ _ _ _ _ (by omega))
  refine Nat.or_lt_two_pow ?_ (h256 ▸ contrib_lt _ _ _ _ _ _ _ _ (by omega))
  refine Nat.or_lt_two_pow ?_ (h256 ▸ contrib_lt _ _ _ _ _ _ _ _ (by omega))
  refine Nat.or_lt_two_pow ?_ (h256 ▸ contrib_lt _ _ _ _ _ _ _ _ (by omega))
  refine Nat.or_lt_two_pow ?_ (h256 ▸ contrib_lt _ _ _ _ _ _ _ _ (by omega))
  norm_num

theorem mapM_eq_some_map {α β : Type} {f : α → Option β} {g : α → β} :
    ∀ {l : List α}, (∀ a ∈ l, f a = some (g a)) → l.mapM f = some (l.map g) := by
  intro l
  induction l with
  | nil => intro _; rfl
  | cons a l ih =>
    intro h
    have ha := h a (List.mem_cons_self a l)
    have hl := ih (fun x hx => h x (List.mem_cons_of_mem a hx))
    rw [← List.mapM'_eq_mapM] at hl ⊢
    simp [List.mapM'_cons, ha, hl]

/-- The glyphs of one output line, in closed form. -/
def lineGlyphs (matrix : List (List Bool)) (height width y : Nat) : List Char :=
  (blockCols width).map (fun x => cell_to_char (blockMask matrix height width x y))

theorem renderLine_eq {matrix : List (List Bool)} {width : Nat}
    (hrect : Rectangular matrix width) (y : Nat) :
    renderLine matrix matrix.length width y =
      some (lineGlyphs matrix matrix.length width y) := by
  unfold renderLine lineGlyphs
  apply mapM_eq_some_map
  intro x hx
  rw [dotsFor_eq hrect]
  rfl

/-- Closed form of `render_braille` on a nonempty rectangular matrix:
one line of glyphs per block-row, each followed by a line break. -/
theorem render_eq {matrix : List (List Bool)} {width : Nat}
    (hne : matrix ≠ []) (hrect : Rectangular matrix width) :
    render_braille matrix = some (String.mk
      (((blockRows matrix.length).map (fun y =>
        lineGlyphs matrix matrix.length width y ++ ['\n'])).flatten)) := by
  obtain ⟨row0, rest, rfl⟩ : ∃ r t, matrix = r :: t := by
    cases matrix with
    | nil => exact absurd rfl hne
    | cons r t => exact ⟨r, t, rfl⟩
  have hw : row0.length = width := hrect row0 (List.mem_cons_self row0 rest)
  subst hw
  unfold render_braille
  simp only [List.head?_cons]
  rw [mapM_eq_some_map (g := fun y =>
    lineGlyphs (row0 :: rest) (row0 :: rest).length row0.length y ++ ['\n'])]
  · rfl
  · intro y hy
    rw [renderLine_eq hrect]
    rfl

theorem flatten_lines_ends :
    ∀ (ls : List (List Char)), ls ≠ [] →
      ∃ pre, (ls.map (fun l => l ++ ['\n'])).flatten = pre ++ ['\n'] := by
  intro ls
  induction ls with
  | nil => intro h; exact absurd rfl h
  | cons l ls ih =>
    intro _
    cases ls with
    | nil => exact ⟨l, by simp⟩
    | cons l2 ls2 =>
      obtain ⟨pre, hpre⟩ := ih (by simp)
      refine ⟨l ++ '\n' :: pre, ?_⟩
      rw [List.map_cons, List.flatten_cons, hpre]
      simp

theorem toNat_ofNat_of_valid {n : Nat} (h : n.isValidChar) :
    (Char.ofNat n).toNat = n := by
  unfold Char.ofNat
  rw [dif_pos h]
  rfl

theorem char_from_u32_eq {n : Nat} (h : n.isValidChar) :
    char_from_u32 n = some (Char.ofNat n) := by
  unfold char_from_u32
  rw [if_pos h]

theorem valid_braille {m : Nat} (hm : m < 256) : (0x2800 + m).isValidChar :=
  Or.inl (by omega)

theorem cell_to_char_eq {m : Nat} (hm : m < 256) :
    cell_to_char m = Char.ofNat (0x2800 + m) := by
  unfold cell_to_char
  rw [char_from_u32_eq (valid_braille hm)]
  rfl

theorem cell_to_char_toNat {m : Nat} (hm : m < 256) :
    (cell_to_char m).toNat = 0x2800 + m := by
  rw [cell_to_char_eq hm]
  exact toNat_ofNat_of_valid (valid_braille hm)

theorem cell_to_char_range {m : Nat} (hm : m < 256) :
    0x2800 ≤ (cell_to_char m).toNat ∧ (cell_to_char m).toNat ≤ 0x28FF := by
  rw [cell_to_char_toNat hm]
  omega

theorem cell_to_char_ne_newline {m : Nat} (hm : m < 256) :
    cell_to_char m ≠ '\n' := by
  intro h
  have := (cell_to_char_range hm).1
  rw [h] at this
  exact absurd this (by decide)

example : render_braille [] = none := by decide
example : render_braille [[]] = some (String.mk ['\n']) := by decide
example : render_braille [[true, true], [true, true], [true, true], [true, true]] =
    some (String.mk [Char.ofNat 0x28FF, '\n']) := by decide
example : render_braille [[true]] = some (String.mk [Char.ofNat 0x2801, '\n']) := by decide
example : parse_u8 (String.mk ['2', '5', '6']) = none := by decide
example : parse_u8 (String.mk ['0', '4', '2']) = some 42 := by decide

theorem cellAt_binarize (img : GrayImage) (t x y : Nat) :
    cellAt (binarize img t) y x =
      (decide (y < img.height) && decide (x < img.width) &&
        decide (img.pix x y < t)) := by
  unfold cellAt binarize
  by_cases hy : y < img.height
  · by_cases hx : x < img.width
    · simp [List.getElem?_map, List.getElem?_range hy, List.getElem?_range hx, hy, hx]
    · have hx' : (List.range img.width)[x]? = none :=
        List.getElem?_eq_none (by simpa using Nat.le_of_not_lt hx)
      simp [List.getElem?_map, List.getElem?_range hy, hx', hy, hx]
  · have hy' : (List.range img.height)[y]? = none :=
      List.getElem?_eq_none (by simpa using Nat.le_of_not_lt hy)
    simp [List.getElem?_map, hy', hy]

theorem or_testBit_false {a b j : Nat} (ha : a.testBit j = false)
    (hb : b.testBit j = false) : (a ||| b).testBit j = false := by
  simp [Nat.testBit_or, ha, hb]

theorem contrib_testBit_ne (matrix : List (List Bool))
    (height width x y dy dx bit j : Nat) (hne : bit ≠ j) :
    (contrib matrix height width x y dy dx bit).testBit j = false := by
  unfold contrib
  split
  · rw [Nat.one_shiftLeft]
    exact Nat.testBit_two_pow_of_ne hne
  · exact Nat.zero_testBit j

theorem contrib_testBit_oob (matrix : List (List Bool))
    (height width x y dy dx bit j : Nat)
    (hoob : ¬ (y + dy < height ∧ x + dx < width)) :
    (contrib matrix height width x y dy dx bit).testBit j = false := by
  unfold contrib
  rw [if_neg (fun h => hoob h.1)]
  exact Nat.zero_testBit j

theorem isDigit_ne_plus {c : Char} (h : c.isDigit = true) : c ≠ '+' := by
  intro hc
  subst hc
  exact absurd h (by decide)

theorem dropSign_of_digits {ds : List Char} (hdig : ∀ c ∈ ds, c.isDigit = true) :
    dropSign ds = ds := by
  cases ds with
  | nil => rfl
  | cons c rest =>
    show (if c = '+' then rest else c :: rest) = c :: rest
    rw [if_neg (isDigit_ne_plus (hdig c (List.mem_cons_self c rest)))]

theorem parse_u8_le {s : String} {v : Nat} (h : parse_u8 s = some v) : v ≤ 255 := by
  unfold parse_u8 at h
  split at h
  · exact absurd h (by simp)
  · split at h
    · split at h
      · next hc =>
        injection h with h
        omega
      · exact absurd h (by simp)
    · exact absurd h (by simp)

/-- C1: the claim says a zero-width or zero-height matrix renders to the
empty string with no out-of-range indexing. The code violates it: on a
zero-height matrix `render_braille` evaluates `matrix[0]` and panics
(modelled as `none`), and on a zero-width matrix of height 5 it emits two
bare line breaks rather than the empty string. -/
theorem render_braille_empty_panics :
    render_braille [] = none ∧
    render_braille [[], [], [], [], []] = some (String.mk ['\n', '\n']) :=
  ⟨rfl, by decide⟩

/-- C2: `binarize` returns exactly `height` rows of exactly `width` cells;
a cell is `true` exactly when the pixel is in range and its luminance is
strictly below the threshold; threshold 0 yields an all-false matrix. -/
theorem binarize_spec (img : GrayImage) (t : Nat) :
    (binarize img t).length = img.height ∧
    (∀ row ∈ binarize img t, row.length = img.width) ∧
    (∀ x y, cellAt (binarize img t) y x = true ↔
      (y < img.height ∧ x < img.width ∧ img.pix x y < t)) ∧
    (∀ row ∈ binarize img 0, ∀ b ∈ row, b = false) := by
  refine ⟨by simp [binarize], ?_, ?_, ?_⟩
  · intro row hrow
    simp only [binarize, List.mem_map] at hrow
    obtain ⟨y, hy, rfl⟩ := hrow
    simp
  · intro x y
    rw [cellAt_binarize]
    simp only [Bool.and_eq_true, decide_eq_true_eq]
    tauto
  · intro row hrow b hb
    simp only [binarize, List.mem_map] at hrow
    obtain ⟨y, hy, rfl⟩ := hrow
    simp only [List.mem_map] at hb
    obtain ⟨x, hx, rfl⟩ := hb
    simp

/-- C4: the `(dx, dy)` to bit-index table is exactly the fixed table of the
source, and it is a bijection from the 8-element domain onto bit indices
0 through 7. -/
theorem bit_table_spec :
    (bit_for 0 0 = some 0 ∧ bit_for 0 1 = some 1 ∧ bit_for 0 2 = some 2 ∧
      bit_for 0 3 = some 6 ∧ bit_for 1 0 = some 3 ∧ bit_for 1 1 = some 4 ∧
      bit_for 1 2 = some 5 ∧ bit_for 1 3 = some 7) ∧
    (∀ dx1 : Fin 2, ∀ dy1 : Fin 4, ∀ dx2 : Fin 2, ∀ dy2 : Fin 4,
      bit_for dx1.val dy1.val = bit_for dx2.val dy2.val →
        dx1 = dx2 ∧ dy1 = dy2) ∧
    (∀ b : Fin 8, ∃ dx : Fin 2, ∃ dy : Fin 4, bit_for dx.val dy.val = some b.val) := by
  decide

/-- Witness for C4: the injectivity part applied at a concrete pair. -/
theorem bit_table_spec_witness : (0 : Fin 2) = 0 ∧ (3 : Fin 4) = 3 :=
  bit_table_spec.2.1 0 3 0 3 rfl

/-- C5: for every 8-bit mask, `cell_to_char` returns exactly the character
with code point `0x2800 + m`, a glyph inside the Braille block, and the
defensive fallback branch is unreachable (`char_from_u32` succeeds). -/
theorem cell_to_char_spec (m : Fin 256) :
    cell_to_char m.val = Char.ofNat (0x2800 + m.val) ∧
    (cell_to_char m.val).toNat = 0x2800 + m.val ∧
    0x2800 ≤ (cell_to_char m.val).toNat ∧
    (cell_to_char m.val).toNat ≤ 0x28FF ∧
    (char_from_u32 (0x2800 + m.val)).isSome = true := by
  have h3 := cell_to_char_range m.isLt
  refine ⟨cell_to_char_eq m.isLt, cell_to_char_toNat m.isLt, h3.1, h3.2, ?_⟩
  rw [char_from_u32_eq (valid_braille m.isLt)]
  rfl

/-- C3 counterexample: on the empty (zero-height) rectangular matrix the
claim demands an output of ceil(0/4) = 0 lines, i.e. the empty string, but
`render_braille` panics there (`matrix[0]` on an empty slice). -/
theorem render_braille_nil_not_empty_string :
    ¬ render_braille [] = some (String.mk []) := by
  decide

/-- C3 (amended to matrices with at least one row): the output is exactly
ceil(h/4) lines of exactly ceil(w/2) glyphs, each line terminated by a line
break, with nothing else before, between, or after them. -/
theorem render_braille_dimension_law {matrix : List (List Bool)} {width : Nat}
    (hne : matrix ≠ []) (hrect : Rectangular matrix width) :
    ∃ lines : List (List Char),
      render_braille matrix =
        some (String.mk ((lines.map (fun l => l ++ ['\n'])).flatten)) ∧
      lines.length = (matrix.length + 3) / 4 ∧
      ∀ l ∈ lines, l.length = (width + 1) / 2 ∧ ∀ c ∈ l, c ≠ '\n' := by
  refine ⟨(blockRows matrix.length).map
    (fun y => lineGlyphs matrix matrix.length width y), ?_, ?_, ?_⟩
  · rw [render_eq hne hrect, List.map_map]
    rfl
  · simp [blockRows]
  · intro l hl
    simp only [List.mem_map] at hl
    obtain ⟨y, hy, rfl⟩ := hl
    refine ⟨by simp [lineGlyphs, blockCols], ?_⟩
    intro c hc
    simp only [lineGlyphs, List.mem_map] at hc
    obtain ⟨x, hx, rfl⟩ := hc
    exact cell_to_char_ne_newline (blockMask_lt matrix matrix.length width x y)

/-- Witness for C3 (amended): a 1x3 matrix yields one line of two glyphs. -/
theorem render_braille_dimension_law_witness :
    ∃ lines : List (List Char),
      render_braille [[true, false, true]] =
        some (String.mk ((lines.map (fun l => l ++ ['\n'])).flatten)) ∧
      lines.length = 1 ∧
      ∀ l ∈ lines, l.length = 2 ∧ ∀ c ∈ l, c ≠ '\n' :=
  @render_braille_dimension_law [[true, false, true]] 3 (by decide) (by decide)

/-- C6: in a rectangular matrix, any sub-position of a block that falls
outside the bounds contributes no bit to that block's mask (its bit from the
table is clear in the mask), and the mask computation completes without any
out-of-range access (it returns `some`). -/
theorem boundary_blankness {matrix : List (List Bool)} {width : Nat}
    (hrect : Rectangular matrix width) (x y dx dy : Nat)
    (hdx : dx < 2) (hdy : dy < 4)
    (hoob : width ≤ x + dx ∨ matrix.length ≤ y + dy) :
    ∃ d, dotsFor matrix matrix.length width x y = some d ∧
      ∀ b, bit_for dx dy = some b → d.testBit b = false := by
  refine ⟨blockMask matrix matrix.length width x y, dotsFor_eq hrect x y, ?_⟩
  intro b hb
  have hnotin : ¬ (y + dy < matrix.length ∧ x + dx < width) := by omega
  interval_cases dx <;> interval_cases dy <;>
    (injection hb with hb; subst hb) <;>
    unfold blockMask <;>
    (repeat apply or_testBit_false) <;>
    first
      | exact Nat.zero_testBit _
      | exact contrib_testBit_ne _ _ _ _ _ _ _ _ _ (by decide)
      | exact contrib_testBit_oob _ _ _ _ _ _ _ _ _ hnotin

/-- Witness for C6: in the 1x1 matrix `[[true]]`, sub-position (1,0) of the
single block is out of bounds; the mask is computed (`some 1`) and bit 3 is
clear. -/
theorem boundary_blankness_witness :
    ∃ d, dotsFor [[true]] 1 1 0 0 = some d ∧
      ∀ b, bit_for 1 0 = some b → d.testBit b = false :=
  @boundary_blankness [[true]] 1 (by decide)
    0 0 1 0 (by decide) (by decide) (Or.inl (by decide))

/-- C7: threshold monotonicity — a pixel inked at threshold `t1` stays inked
at any threshold `t2 ≥ t1`. -/
theorem binarize_threshold_mono (img : GrayImage) (t1 t2 x y : Nat)
    (hle : t1 ≤ t2) (hink : cellAt (binarize img t1) y x = true) :
    cellAt (binarize img t2) y x = true := by
  rw [cellAt_binarize] at hink ⊢
  simp only [Bool.and_eq_true, decide_eq_true_eq] at hink ⊢
  exact ⟨hink.1, Nat.lt_of_lt_of_le hink.2 hle⟩

/-- Witness for C7: a pixel of luminance 5, inked at threshold 10, is still
inked at threshold 20. -/
theorem binarize_threshold_mono_witness :
    cellAt (binarize ⟨1, 1, fun _ _ => 5⟩ 20) 0 0 = true :=
  binarize_threshold_mono ⟨1, 1, fun _ _ => 5⟩ 10 20 0 0 (by decide) (by decide)

/-- C8: a present but unparsable optional argument is silently replaced by
its default: an unparsable third argument yields threshold 128, and for any
parser of the fourth argument (the scale) a parse failure yields the default
value, with no error reported (the combinators discard the failure). -/
theorem optional_args_silent_default {args : List String} {s t : String}
    (h2 : args.get? 2 = some s) (hs : parse_u8 s = none)
    (h3 : args.get? 3 = some t) :
    threshold_of_args args = 128 ∧
    ∀ {α : Type} (p : String → Option α) (d : α), p t = none →
      opt_arg_or args 3 p d = d := by
  constructor
  · unfold threshold_of_args opt_arg_or
    rw [h2, Option.some_bind, hs]
    rfl
  · intro α p d hp
    unfold opt_arg_or
    rw [h3, Option.some_bind, hp]
    rfl

/-- Witness for C8: threshold argument `"abc"` and scale argument `"xyz"`
both fall back to their defaults. -/
theorem optional_args_silent_default_witness :
    threshold_of_args ["prog", "img.png", "abc", "xyz"] = 128 ∧
    opt_arg_or ["prog", "img.png", "abc", "xyz"] 3
      (fun _ => (none : Option Nat)) 7 = 7 := by
  have h := @optional_args_silent_default ["prog", "img.png", "abc", "xyz"]
    "abc" "xyz" rfl (by decide) rfl
  exact ⟨h.1, h.2 _ _ rfl⟩

/-- C9: a decimal digit string parses as `u8` exactly when its value is at
most 255; a decimal string denoting a value above 255 fails to parse and the
threshold falls back to 128; and the threshold handed to the binarizer never
exceeds 255 on any argument list. -/
theorem parse_u8_range_behavior {ds : List Char} (hne : ds ≠ [])
    (hdig : ∀ c ∈ ds, c.isDigit = true) :
    (digitsVal ds ≤ 255 → parse_u8 (String.mk ds) = some (digitsVal ds)) ∧
    (255 < digitsVal ds → parse_u8 (String.mk ds) = none ∧
      ∀ p i rest, threshold_of_args (p :: i :: String.mk ds :: rest) = 128) ∧
    (∀ ds2 : List Char, parse_u8 (String.mk ('-' :: ds2)) = none) ∧
    (∀ args : List String, threshold_of_args args ≤ 255) := by
  have hds : dropSign (String.mk ds).data = ds := dropSign_of_digits hdig
  have hemp : ds.isEmpty = false := by
    cases ds with
    | nil => exact absurd rfl hne
    | cons c rest => rfl
  have hall : ds.all Char.isDigit = true := List.all_eq_true.mpr hdig
  refine ⟨?_, ?_, ?_, ?_⟩
  · intro hle
    simp [parse_u8, hds, hemp, hall, hle]
  · intro hgt
    have hpnone : parse_u8 (String.mk ds) = none := by
      simp [parse_u8, hds, hemp, hall, Nat.not_le.mpr hgt]
    refine ⟨hpnone, ?_⟩
    intro p i rest
    unfold threshold_of_args opt_arg_or
    have hget : (p :: i :: String.mk ds :: rest).get? 2 = some (String.mk ds) := rfl
    rw [hget, Option.some_bind, hpnone]
    rfl
  · intro ds2
    have hdrop : dropSign ('-' :: ds2) = '-' :: ds2 := by
      show (if '-' = '+' then ds2 else '-' :: ds2) = '-' :: ds2
      rw [if_neg (by decide)]
    have hnodig : ('-' :: ds2).all Char.isDigit = false := by
      simp [List.all_cons]
    simp [parse_u8, hdrop, hnodig]
  · intro args
    unfold threshold_of_args opt_arg_or
    cases hg : args.get? 2 with
    | none => simp
    | some s =>
      rw [Option.some_bind]
      cases hp : parse_u8 s with
      | none => simp
      | some v => simpa using parse_u8_le hp

/-- Witness for C9: the out-of-range literal `"256"` fails to parse and the
threshold falls back to 128. -/
theorem parse_u8_range_behavior_witness :
    parse_u8 (String.mk ['2', '5', '6']) = none ∧
    threshold_of_args ["prog", "img", String.mk ['2', '5', '6']] = 128 := by
  have h := @parse_u8_range_behavior ['2', '5', '6'] (by decide) (by decide)
  have h2 := h.2.1 (by decide)
  exact ⟨h2.1, h2.2 "prog" "img" []⟩

/-- Witness for C2: the single pixel of a 1x1 black image is inked at the
default threshold. -/
theorem binarize_spec_witness :
    cellAt (binarize ⟨1, 1, fun _ _ => 0⟩ 128) 0 0 = true :=
  ((binarize_spec ⟨1, 1, fun _ _ => 0⟩ 128).2.2.1 0 0).mpr
    ⟨by decide, by decide, by decide⟩

/-- C10: on a nonempty rectangular matrix, rendering succeeds, the output is
nonempty, ends with a line break, and every character is either a line break
or a Braille glyph in U+2800 through U+28FF. -/
theorem render_output_charset {matrix : List (List Bool)} {width : Nat}
    (hne : matrix ≠ []) (hrect : Rectangular matrix width) :
    ∃ s : String, render_braille matrix = some s ∧
      s.data ≠ [] ∧ s.data.getLast? = some '\n' ∧
      ∀ c ∈ s.data, c = '\n' ∨ (0x2800 ≤ c.toNat ∧ c.toNat ≤ 0x28FF) := by
  have hmap : ((blockRows matrix.length).map
      (fun y => lineGlyphs matrix matrix.length width y ++ ['\n'])) =
      (((blockRows matrix.length).map
        (fun y => lineGlyphs matrix matrix.length width y)).map
          (fun l => l ++ ['\n'])) := by
    rw [List.map_map]
    rfl
  have hne2 : ((blockRows matrix.length).map
      (fun y => lineGlyphs matrix matrix.length width y)) ≠ [] := by
    have h1 : matrix.length ≠ 0 := fun h0 => hne (List.length_eq_zero.mp h0)
    simp only [ne_eq, List.map_eq_nil_iff, blockRows, List.range_eq_nil]
    omega
  obtain ⟨pre, hpre⟩ := flatten_lines_ends _ hne2
  refine ⟨_, render_eq hne hrect, ?_, ?_, ?_⟩
  · show ((blockRows matrix.length).map
      (fun y => lineGlyphs matrix matrix.length width y ++ ['\n'])).flatten ≠ []
    rw [hmap, hpre]
    simp
  · show ((blockRows matrix.length).map
      (fun y => lineGlyphs matrix matrix.length width y ++ ['\n'])).flatten.getLast?
        = some '\n'
    rw [hmap, hpre]
    exact List.getLast?_concat pre
  · intro c hc
    have hc2 : c ∈ ((blockRows matrix.length).map
        (fun y => lineGlyphs matrix matrix.length width y ++ ['\n'])).flatten := hc
    rw [List.mem_flatten] at hc2
    obtain ⟨l, hl, hcl⟩ := hc2
    simp only [List.mem_map] at hl
    obtain ⟨y, hy, rfl⟩ := hl
    rcases List.mem_append.mp hcl with hg | hnl
    · right
      simp only [lineGlyphs, List.mem_map] at hg
      obtain ⟨x, hx, rfl⟩ := hg
      exact cell_to_char_range (blockMask_lt matrix matrix.length width x y)
    · left
      simpa using hnl

/-- Witness for C10: a 1x2 matrix with one inked pixel. -/
theorem render_output_charset_witness :
    ∃ s : String, render_braille [[false], [true]] = some s ∧
      s.data ≠ [] ∧ s.data.getLast? = some '\n' ∧
      ∀ c ∈ s.data, c = '\n' ∨ (0x2800 ≤ c.toNat ∧ c.toNat ≤ 0x28FF) :=
  @render_output_charset [[false], [true]] 1 (by decide) (by decide)

end NoirAscii
